import Mathlib

/-!
Shallow embedding of src/trabalhoDetectiveQuest.c (Detective Quest).

C strings (char pointers that are never NULL inside the modelled calls) are
modelled as their byte sequences, type Str := List Nat; the byte values of a
C string literal are the UTF-8 bytes of the corresponding Lean literal,
computed by strBytes.  strcmp is modelled by cmpBytes, the three-way
byte-wise lexicographic comparison, whose result classes lt / eq / gt stand
for a negative / zero / positive int.  The clue BST (ClueNode), the chained
hash table (HashEntry[HASH_SIZE]) and the room tree (Room) are modelled as
inductive trees, lists of entries indexed by bucket number, and an inductive
tree respectively; stdin is a list of already-line-split strings (fgets
followed by trim_newline), where an exhausted list models end of input.
-/

/-- Byte strings: the contents of a C char array, one Nat (0..255) per byte. -/
abbrev Str := List Nat

/-- UTF-8 encoding of one Unicode code point, as byte values. -/
def utf8EncodeCharNat (n : Nat) : List Nat :=
  if n < 128 then [n]
  else if n < 2048 then [192 + n / 64, 128 + n % 64]
  else if n < 65536 then [224 + n / 4096, 128 + (n / 64) % 64, 128 + n % 64]
  else [240 + n / 262144, 128 + (n / 4096) % 64, 128 + (n / 64) % 64, 128 + n % 64]

/-- The byte sequence of a Lean string literal: the bytes a C source string
literal with the same characters holds (UTF-8). -/
def strBytes (s : String) : Str :=
  (s.data.map fun c => utf8EncodeCharNat c.toNat).flatten

/-- Model of strcmp: three-way lexicographic comparison of byte sequences.
lt / eq / gt stand for strcmp returning a negative / zero / positive int. -/
def cmpBytes : Str → Str → Ordering
  | [], [] => .eq
  | [], _ :: _ => .lt
  | _ :: _, [] => .gt
  | a :: as, b :: bs =>
    if a < b then .lt
    else if b < a then .gt
    else cmpBytes as bs

/-- strcmp(a, b) == 0, as a Bool. -/
def streq (a b : Str) : Bool :=
  match cmpBytes a b with
  | .eq => true
  | _ => false

/-- strcmp(a, b) < 0, as a Bool. -/
def sLt (a b : Str) : Bool :=
  match cmpBytes a b with
  | .lt => true
  | _ => false

/- ---------------- basic facts about cmpBytes ---------------- -/

theorem cmpBytes_self (a : Str) : cmpBytes a a = .eq := by
  induction a with
  | nil => rfl
  | cons x xs ih => simp [cmpBytes, ih]

theorem cmpBytes_eq_iff (a b : Str) : cmpBytes a b = .eq ↔ a = b := by
  constructor
  · intro h
    induction a generalizing b with
    | nil => cases b with
      | nil => rfl
      | cons y ys => simp [cmpBytes] at h
    | cons x xs ih =>
      cases b with
      | nil => simp [cmpBytes] at h
      | cons y ys =>
        simp only [cmpBytes] at h
        by_cases hxy : x < y
        · simp [hxy] at h
        · by_cases hyx : y < x
          · simp [hxy, hyx] at h
          · have hx : x = y := Nat.le_antisymm (Nat.le_of_not_lt hyx) (Nat.le_of_not_lt hxy)
            simp only [hxy, hyx, if_false] at h
            rw [hx, ih ys h]
  · intro h; subst h; exact cmpBytes_self a

theorem streq_iff (a b : Str) : streq a b = true ↔ a = b := by
  unfold streq
  rw [← cmpBytes_eq_iff a b]
  cases cmpBytes a b <;> simp

theorem cmpBytes_gt_iff_lt (a b : Str) : cmpBytes a b = .gt ↔ cmpBytes b a = .lt := by
  induction a generalizing b with
  | nil => cases b <;> simp [cmpBytes]
  | cons x xs ih =>
    cases b with
    | nil => simp [cmpBytes]
    | cons y ys =>
      simp only [cmpBytes]
      by_cases hxy : x < y
      · have : ¬ y < x := Nat.lt_asymm hxy
        simp [hxy, this]
      · by_cases hyx : y < x
        · simp [hxy, hyx]
        · simp [hxy, hyx, ih ys]

theorem cmpBytes_lt_trans {a b c : Str} (hab : cmpBytes a b = .lt)
    (hbc : cmpBytes b c = .lt) : cmpBytes a c = .lt := by
  induction a generalizing b c with
  | nil =>
    cases b with
    | nil => exact absurd hab (by simp [cmpBytes])
    | cons y ys =>
      cases c with
      | nil => exact absurd hbc (by simp [cmpBytes])
      | cons z zs => simp [cmpBytes]
  | cons x xs ih =>
    cases b with
    | nil => exact absurd hab (by simp [cmpBytes])
    | cons y ys =>
      cases c with
      | nil => exact absurd hbc (by simp [cmpBytes])
      | cons z zs =>
        simp only [cmpBytes] at hab hbc ⊢
        by_cases hxy : x < y
        · by_cases hyz : y < z
          · simp [Nat.lt_trans hxy hyz]
          · by_cases hzy : z < y
            · simp [hyz, hzy] at hbc
            · have : y = z := Nat.le_antisymm (Nat.le_of_not_lt hzy) (Nat.le_of_not_lt hyz)
              subst this
              simp [hxy]
        · by_cases hyx : y < x
          · simp [hxy, hyx] at hab
          · have hx : x = y := Nat.le_antisymm (Nat.le_of_not_lt hyx) (Nat.le_of_not_lt hxy)
            subst hx
            by_cases hyz : x < z
            · simp [hyz]
            · by_cases hzy : z < x
              · simp [hyz, hzy] at hbc
              · have : x = z := Nat.le_antisymm (Nat.le_of_not_lt hzy) (Nat.le_of_not_lt hyz)
                subst this
                simp only [hxy, if_false, Nat.lt_irrefl, if_neg] at hab hbc ⊢
                · exact ih hab hbc

theorem sLt_trans {a b c : Str} (hab : sLt a b = true) (hbc : sLt b c = true) :
    sLt a c = true := by
  unfold sLt at *
  cases hab' : cmpBytes a b <;> rw [hab'] at hab <;> try simp at hab
  cases hbc' : cmpBytes b c <;> rw [hbc'] at hbc <;> try simp at hbc
  rw [cmpBytes_lt_trans hab' hbc']

theorem sLt_irrefl (a : Str) : sLt a a = false := by
  unfold sLt; rw [cmpBytes_self]

theorem sLt_ne {a b : Str} (h : sLt a b = true) : a ≠ b := by
  intro he; subst he; rw [sLt_irrefl] at h; exact absurd h (by simp)

/- ---------------- ClueLedger: the BST of collected clues ---------------- -/

/-- Model of the ClueNode BST: a ClueNode pointer, nil standing for NULL. -/
inductive ClueTree where
  | nil : ClueTree
  | node (clue : Str) (left right : ClueTree) : ClueTree
deriving DecidableEq

/-- Model of inserirPista (src lines 88-102): BST insert by strcmp, no-op on
an equal key.  The C NULL-clue guard is outside the domain of Str values. -/
def inserirPista (root : ClueTree) (clue : Str) : ClueTree :=
  match root with
  | .nil => .node clue .nil .nil
  | .node c l r =>
    match cmpBytes clue c with
    | .eq => .node c l r
    | .lt => .node c (inserirPista l clue) r
    | .gt => .node c l (inserirPista r clue)

/-- Model of listarPistas (src lines 237-242): the in-order sequence of clue
texts, in the order the C function prints them. -/
def listarPistas : ClueTree → List Str
  | .nil => []
  | .node c l r => listarPistas l ++ c :: listarPistas r

/- ---------------- SuspectIndex: the chained hash table ---------------- -/

/-- HASH_SIZE from the C source. -/
def HASH_SIZE : Nat := 101

/-- Model of a HashEntry: one (pista, suspeito) pair of a bucket chain. -/
structure HashEntry where
  key : Str
  suspect : Str
deriving DecidableEq

/-- Model of HashEntry *table[HASH_SIZE]: bucket index to chain, chain head
first.  Indices at or above HASH_SIZE are never touched and stay empty. -/
abbrev HashTable := Nat → List HashEntry

/-- A table of all-NULL buckets, the state after the clearing loop of
popularTabelaHash (src line 300). -/
def emptyTable : HashTable := fun _ => []

/-- One round of the djb2 loop body of hash_func: h = ((h << 5) + h) + c,
on a 64-bit unsigned long. -/
def hash_step (h b : Nat) : Nat := (h * 32 + h + b) % (2 ^ 64)

/-- Model of hash_func (src lines 121-125): djb2 over the bytes, reduced
modulo HASH_SIZE.  The final cast to unsigned int cannot overflow. -/
def hash_func (s : Str) : Nat := (s.foldl hash_step 5381) % HASH_SIZE

/-- The while loop of inserirNaHash when the key is present: replace the
suspect of the first entry whose key strcmp-equals pista, keep the rest. -/
def replaceSuspect : List HashEntry → Str → Str → List HashEntry
  | [], _, _ => []
  | e :: rest, pista, suspeito =>
    if streq e.key pista then { key := e.key, suspect := suspeito } :: rest
    else e :: replaceSuspect rest pista suspeito

/-- Whether the while loop of inserirNaHash finds the key in the chain. -/
def containsKey : List HashEntry → Str → Bool
  | [], _ => false
  | e :: rest, pista => streq e.key pista || containsKey rest pista

/-- Model of inserirNaHash (src lines 127-147): in the bucket selected by
hash_func, replace in place when the key exists, else push a new entry at
the chain head.  The C NULL-argument guard is outside the domain of Str. -/
def inserirNaHash (table : HashTable) (pista suspeito : Str) : HashTable :=
  let idx := hash_func pista
  let chain := table idx
  let chain' :=
    if containsKey chain pista then replaceSuspect chain pista suspeito
    else { key := pista, suspect := suspeito } :: chain
  fun j => if j = idx then chain' else table j

/-- The while loop of encontrarSuspeito: first entry whose key
strcmp-equals pista, NULL when the chain runs out. -/
def findInChain : List HashEntry → Str → Option Str
  | [], _ => none
  | e :: rest, pista =>
    if streq e.key pista then some e.suspect else findInChain rest pista

/-- Model of encontrarSuspeito (src lines 154-163): scan the bucket selected
by hash_func; none models the NULL result. -/
def encontrarSuspeito (table : HashTable) (pista : Str) : Option Str :=
  findInChain (table (hash_func pista)) pista

/-- Number of entries for the given key in one chain. -/
def countKey (chain : List HashEntry) (c : Str) : Nat :=
  (chain.filter fun e => streq e.key c).length

/-- Number of entries for the given key in the whole table. -/
def entriesForKey (t : HashTable) (c : Str) : Nat :=
  Finset.sum (Finset.range HASH_SIZE) fun i => countKey (t i) c

/- ---------------- VerdictEngine ---------------- -/

/-- Model of count_clues_for_suspect (src lines 227-235): in-order walk of
the ledger; a clue counts when its table lookup is non-NULL and the found
suspect strcmp-equals the accused. -/
def count_clues_for_suspect (root : ClueTree) (table : HashTable)
    (suspect : Str) : Nat :=
  match root with
  | .nil => 0
  | .node c l r =>
    count_clues_for_suspect l table suspect
    + (match encontrarSuspeito table c with
       | some s => if streq s suspect then 1 else 0
       | none => 0)
    + count_clues_for_suspect r table suspect

/-- The observable outcome of verificarSuspeitoFinal, one constructor per
return path of the C function. -/
inductive Veredito where
  /-- The message Nenhuma pista foi coletada: the empty-ledger early return. -/
  | semPistas : Veredito
  /-- fgets returned NULL at the accusation prompt: silent return. -/
  | fimDeEntrada : Veredito
  /-- The message Nenhum suspeito informado: empty accused name after trimming. -/
  | semSuspeito : Veredito
  /-- The message Acusação válida: count at least 2, with the printed count. -/
  | acusacaoValida (count : Nat) : Veredito
  /-- The message Acusação fraca: count below 2, with the printed count. -/
  | acusacaoFraca (count : Nat) : Veredito
deriving DecidableEq

/-- Model of verificarSuspeitoFinal (src lines 244-271), in state-passing
style: besides the outcome it returns the ledger, the table and the not yet
consumed stdin lines, recording that the C body never writes to the first
two and reads at most one line.  The first stdin entry models what fgets
plus trim_newline would hand back; an empty stdin models end of input. -/
def verificarSuspeitoFinal (collected : ClueTree) (table : HashTable)
    (stdin : List Str) : Veredito × ClueTree × HashTable × List Str :=
  match collected with
  | .nil => (.semPistas, collected, table, stdin)
  | .node c l r =>
    match stdin with
    | [] => (.fimDeEntrada, .node c l r, table, [])
    | accused :: rest =>
      if accused = [] then (.semSuspeito, .node c l r, table, rest)
      else
        let count := count_clues_for_suspect (.node c l r) table accused
        if 2 ≤ count then (.acusacaoValida count, .node c l r, table, rest)
        else (.acusacaoFraca count, .node c l r, table, rest)

/- ---------------- ExplorationEngine ---------------- -/

/-- Model of the Room tree: a Room pointer, nil standing for NULL. -/
inductive Room where
  | nil : Room
  | node (name : Str) (left right : Room) : Room
deriving DecidableEq

/-- The hard-coded room-name to clue chain at the top of the explorarSalas
loop body (src lines 182-191); none models the NULL clue. -/
def getClueForRoom (name : Str) : Option Str :=
  if streq name (strBytes "Entrada") then some (strBytes "Pegadas lamacentas")
  else if streq name (strBytes "Salão") then some (strBytes "Vidro quebrado")
  else if streq name (strBytes "Cozinha") then some (strBytes "Faca com impressões")
  else if streq name (strBytes "Biblioteca") then some (strBytes "Livro deslocado")
  else if streq name (strBytes "Escritório") then some (strBytes "Carta rasgada")
  else if streq name (strBytes "Quarto") then some (strBytes "Frascos vazios")
  else if streq name (strBytes "Varanda") then some (strBytes "Fibra vermelha")
  else if streq name (strBytes "Sótão") then some (strBytes "Marcas de arraste")
  else if streq name (strBytes "Porão") then some (strBytes "Pegada pequena")
  else none

/-- The clue collection step on entering a room (src lines 193-194):
adicionarPista prints and calls inserirPista when a clue exists. -/
def visitClue (collected : ClueTree) (name : Str) : ClueTree :=
  match getClueForRoom name with
  | some clue => inserirPista collected clue
  | none => collected

/-- Outcome of dispatching on the first input byte (src lines 202-214). -/
inductive StepOutcome where
  /-- The loop continues with this value of the cursor atual. -/
  | continueAt (next : Room) : StepOutcome
  /-- The s branch: break out of the exploration loop. -/
  | finished : StepOutcome
deriving DecidableEq

/-- Model of the navigation dispatch (src lines 202-214) at the room
node name left right, on first input byte c: e or E moves left when a left
child exists, d or D moves right when a right child exists, a missing child
leaves the cursor where it is, s or S breaks, anything else is reported
invalid and leaves the cursor where it is. -/
def navStep (name : Str) (left right : Room) (c : Nat) : StepOutcome :=
  if c = 'e'.toNat || c = 'E'.toNat then
    match left with
    | .nil => .continueAt (.node name left right)
    | .node n a b => .continueAt (.node n a b)
  else if c = 'd'.toNat || c = 'D'.toNat then
    match right with
    | .nil => .continueAt (.node name left right)
    | .node n a b => .continueAt (.node n a b)
  else if c = 's'.toNat || c = 'S'.toNat then .finished
  else .continueAt (.node name left right)

/-- Model of the while loop of explorarSalas (src lines 175-215): each
iteration collects the current room's clue, then reads one stdin line; an
exhausted stdin models fgets returning NULL (break), an empty line models
the strlen == 0 continue, otherwise the first byte is dispatched.  Returns
the final collected ledger. -/
def explorarLoop (atual : Room) (collected : ClueTree) (stdin : List Str) :
    ClueTree :=
  match atual with
  | .nil => collected
  | .node name left right =>
    let col := visitClue collected name
    match stdin with
    | [] => col
    | line :: rest =>
      match line with
      | [] => explorarLoop (.node name left right) col rest
      | c :: _ =>
        match navStep name left right c with
        | .continueAt next => explorarLoop next col rest
        | .finished => col

/-- Model of explorarSalas (src lines 170-217).  The table parameter is
taken and, as in the C function, never used. -/
def explorarSalas (root : Room) (collected : ClueTree) (table : HashTable)
    (stdin : List Str) : ClueTree :=
  explorarLoop root collected stdin

/- ---------------- scenario construction ---------------- -/

/-- Model of construirMansao (src lines 276-295): the fixed room tree. -/
def construirMansao : Room :=
  .node (strBytes "Entrada")
    (.node (strBytes "Salão")
      (.node (strBytes "Biblioteca")
        (.node (strBytes "Sótão") .nil .nil)
        .nil)
      (.node (strBytes "Escritório")
        .nil
        (.node (strBytes "Porão") .nil .nil)))
    (.node (strBytes "Cozinha")
      (.node (strBytes "Quarto") .nil .nil)
      (.node (strBytes "Varanda") .nil .nil))

/-- Model of popularTabelaHash (src lines 298-311): clear all buckets, then
insert the nine fixed clue to suspect associations in order. -/
def popularTabelaHash : HashTable :=
  inserirNaHash (inserirNaHash (inserirNaHash (inserirNaHash (inserirNaHash
    (inserirNaHash (inserirNaHash (inserirNaHash (inserirNaHash emptyTable
      (strBytes "Pegadas lamacentas") (strBytes "Sr. Verde"))
      (strBytes "Vidro quebrado") (strBytes "Sra. Rosa"))
      (strBytes "Faca com impressões") (strBytes "Sr. Preto"))
      (strBytes "Livro deslocado") (strBytes "Sra. Rosa"))
      (strBytes "Carta rasgada") (strBytes "Sr. Preto"))
      (strBytes "Frascos vazios") (strBytes "Dr. Azul"))
      (strBytes "Fibra vermelha") (strBytes "Sra. Rosa"))
      (strBytes "Marcas de arraste") (strBytes "Sr. Verde"))
      (strBytes "Pegada pequena") (strBytes "Sra. Rosa")

/- ---------------- predicates used by the statements ---------------- -/

/-- Every clue text in the tree satisfies p. -/
def allClues (p : Str → Bool) : ClueTree → Bool
  | .nil => true
  | .node c l r => p c && allClues p l && allClues p r

/-- The BST ordering invariant under the insertion comparison: every text in
a left subtree is strictly below its root text, every text in a right
subtree strictly above, recursively. -/
def isBST : ClueTree → Bool
  | .nil => true
  | .node c l r =>
    allClues (fun x => sLt x c) l && allClues (fun x => sLt c x) r
      && isBST l && isBST r

/-- Whether a collected clue counts for the accused: its table lookup is
non-NULL and the found suspect strcmp-equals the accused (the condition of
src line 232). -/
def clueImplicates (table : HashTable) (suspect : Str) (c : Str) : Bool :=
  match encontrarSuspeito table c with
  | some s => streq s suspect
  | none => false

/-- The table reached from all-empty buckets by a sequence of inserirNaHash
calls, one (pista, suspeito) pair each. -/
def aplicarInsercoes (ops : List (Str × Str)) : HashTable :=
  ops.foldl (fun t p => inserirNaHash t p.1 p.2) emptyTable

/-- Well-formedness of a table state: every entry sits in the bucket its key
hashes to, and no bucket holds two entries for one key.  Holds for every
table the program builds, by tableWF_aplicarInsercoes below. -/
def tableWF (t : HashTable) : Prop :=
  (∀ i, ∀ e ∈ t i, hash_func e.key = i) ∧ (∀ i c, countKey (t i) c ≤ 1)

/-- The ledger of the verdict-threshold scenario of the spec: exactly the
clues Vidro quebrado, Livro deslocado and Fibra vermelha. -/
def exemploLedger : ClueTree :=
  inserirPista (inserirPista (inserirPista .nil
    (strBytes "Vidro quebrado")) (strBytes "Livro deslocado"))
    (strBytes "Fibra vermelha")

/-- The suspect index of the verdict-threshold scenario of the spec: the
three clues of exemploLedger all mapped to Sra. Rosa. -/
def exemploTabela : HashTable :=
  inserirNaHash (inserirNaHash (inserirNaHash emptyTable
    (strBytes "Vidro quebrado") (strBytes "Sra. Rosa"))
    (strBytes "Livro deslocado") (strBytes "Sra. Rosa"))
    (strBytes "Fibra vermelha") (strBytes "Sra. Rosa")

/- ---------------- lemmas: the clue BST ---------------- -/

theorem allClues_iff (p : Str → Bool) (t : ClueTree) :
    allClues p t = true ↔ ∀ x ∈ listarPistas t, p x = true := by
  induction t with
  | nil => simp [allClues, listarPistas]
  | node c l r ihl ihr =>
    simp only [allClues, listarPistas, Bool.and_eq_true, ihl, ihr,
      List.mem_append, List.mem_cons]
    constructor
    · rintro ⟨⟨hc, hl⟩, hr⟩ x hx
      rcases hx with hx | hx | hx
      · exact hl x hx
      · subst hx; exact hc
      · exact hr x hx
    · intro h
      exact ⟨⟨h c (Or.inr (Or.inl rfl)), fun x hx => h x (Or.inl hx)⟩,
        fun x hx => h x (Or.inr (Or.inr hx))⟩

theorem mem_inserirPista (t : ClueTree) (c x : Str) :
    x ∈ listarPistas (inserirPista t c) ↔ x ∈ listarPistas t ∨ x = c := by
  induction t with
  | nil => simp [inserirPista, listarPistas]
  | node c' l r ihl ihr =>
    cases hc : cmpBytes c c' with
    | eq =>
      have : c = c' := (cmpBytes_eq_iff c c').mp hc
      subst this
      simp only [inserirPista, hc, listarPistas, List.mem_append, List.mem_cons]
      constructor
      · exact Or.inl
      · rintro (h | h)
        · exact h
        · subst h; exact Or.inr (Or.inl rfl)
    | lt =>
      simp only [inserirPista, hc, listarPistas, List.mem_append,
        List.mem_cons, ihl]
      tauto
    | gt =>
      simp only [inserirPista, hc, listarPistas, List.mem_append,
        List.mem_cons, ihr]
      tauto

theorem allClues_inserirPista (p : Str → Bool) (t : ClueTree) (c : Str)
    (hc : p c = true) (ht : allClues p t = true) :
    allClues p (inserirPista t c) = true := by
  rw [allClues_iff] at ht ⊢
  intro x hx
  rcases (mem_inserirPista t c x).mp hx with h | h
  · exact ht x h
  · subst h; exact hc

theorem isBST_inserirPista (t : ClueTree) (c : Str) (h : isBST t = true) :
    isBST (inserirPista t c) = true := by
  induction t with
  | nil => simp [inserirPista, isBST, allClues]
  | node c' l r ihl ihr =>
    simp only [isBST, Bool.and_eq_true] at h
    obtain ⟨⟨⟨hal, har⟩, hbl⟩, hbr⟩ := h
    cases hc : cmpBytes c c' with
    | eq =>
      simp only [inserirPista, hc, isBST, Bool.and_eq_true]
      exact ⟨⟨⟨hal, har⟩, hbl⟩, hbr⟩
    | lt =>
      have hlt : sLt c c' = true := by unfold sLt; rw [hc]
      simp only [inserirPista, hc, isBST, Bool.and_eq_true]
      exact ⟨⟨⟨allClues_inserirPista _ l c hlt hal, har⟩, ihl hbl⟩, hbr⟩
    | gt =>
      have hlt : sLt c' c = true := by
        unfold sLt; rw [(cmpBytes_gt_iff_lt c c').mp hc]
      simp only [inserirPista, hc, isBST, Bool.and_eq_true]
      exact ⟨⟨⟨hal, allClues_inserirPista _ r c hlt har⟩, hbl⟩, ihr hbr⟩

theorem pairwise_listarPistas (t : ClueTree) (h : isBST t = true) :
    (listarPistas t).Pairwise (fun a b => sLt a b = true) := by
  induction t with
  | nil => simp [listarPistas]
  | node c l r ihl ihr =>
    simp only [isBST, Bool.and_eq_true] at h
    obtain ⟨⟨⟨hal, har⟩, hbl⟩, hbr⟩ := h
    rw [allClues_iff] at hal har
    simp only [listarPistas]
    rw [List.pairwise_append]
    refine ⟨ihl hbl, ?_, ?_⟩
    · rw [List.pairwise_cons]
      exact ⟨fun y hy => har y hy, ihr hbr⟩
    · intro x hx y hy
      rcases List.mem_cons.mp hy with hy | hy
      · subst hy; exact hal x hx
      · exact sLt_trans (hal x hx) (har y hy)

theorem nodup_listarPistas (t : ClueTree) (h : isBST t = true) :
    (listarPistas t).Nodup := by
  exact (pairwise_listarPistas t h).imp fun hab => sLt_ne hab

theorem inserirPista_mem_eq (t : ClueTree) (c : Str) (hb : isBST t = true)
    (hm : c ∈ listarPistas t) : inserirPista t c = t := by
  induction t with
  | nil => simp [listarPistas] at hm
  | node c' l r ihl ihr =>
    simp only [isBST, Bool.and_eq_true] at hb
    obtain ⟨⟨⟨hal, har⟩, hbl⟩, hbr⟩ := hb
    rw [allClues_iff] at hal har
    cases hc : cmpBytes c c' with
    | eq => simp [inserirPista, hc]
    | lt =>
      have hlt : sLt c c' = true := by unfold sLt; rw [hc]
      have hne : c ≠ c' := by
        intro he
        rw [he, sLt_irrefl] at hlt
        exact absurd hlt (by simp)
      have hnr : c ∉ listarPistas r := by
        intro hr
        have := sLt_trans (har c hr) hlt
        rw [sLt_irrefl] at this
        exact absurd this (by simp)
      have hml : c ∈ listarPistas l := by
        simp only [listarPistas, List.mem_append, List.mem_cons] at hm
        rcases hm with h | h | h
        · exact h
        · exact absurd h hne
        · exact absurd h hnr
      simp [inserirPista, hc, ihl hbl hml]
    | gt =>
      have hlt : sLt c' c = true := by
        unfold sLt; rw [(cmpBytes_gt_iff_lt c c').mp hc]
      have hne : c ≠ c' := by
        intro he
        rw [he, sLt_irrefl] at hlt
        exact absurd hlt (by simp)
      have hnl : c ∉ listarPistas l := by
        intro hl
        have := sLt_trans hlt (hal c hl)
        rw [sLt_irrefl] at this
        exact absurd this (by simp)
      have hmr : c ∈ listarPistas r := by
        simp only [listarPistas, List.mem_append, List.mem_cons] at hm
        rcases hm with h | h | h
        · exact absurd h hnl
        · exact absurd h hne
        · exact h
      simp [inserirPista, hc, ihr hbr hmr]

theorem length_inserirPista_le (t : ClueTree) (c : Str) :
    (listarPistas (inserirPista t c)).length ≤ (listarPistas t).length + 1 := by
  induction t with
  | nil => simp [inserirPista, listarPistas]
  | node c' l r ihl ihr =>
    cases hc : cmpBytes c c' with
    | eq => simp [inserirPista, hc]
    | lt =>
      simp only [inserirPista, hc, listarPistas, List.length_append,
        List.length_cons]
      omega
    | gt =>
      simp only [inserirPista, hc, listarPistas, List.length_append,
        List.length_cons]
      omega

theorem length_inserirPista_not_mem (t : ClueTree) (c : Str)
    (hm : c ∉ listarPistas t) :
    (listarPistas (inserirPista t c)).length = (listarPistas t).length + 1 := by
  induction t with
  | nil => simp [inserirPista, listarPistas]
  | node c' l r ihl ihr =>
    simp only [listarPistas, List.mem_append, List.mem_cons] at hm
    push_neg at hm
    obtain ⟨hml, hne, hmr⟩ := hm
    cases hc : cmpBytes c c' with
    | eq => exact absurd ((cmpBytes_eq_iff c c').mp hc) hne
    | lt =>
      simp only [inserirPista, hc, listarPistas, List.length_append,
        List.length_cons, ihl hml]
      omega
    | gt =>
      simp only [inserirPista, hc, listarPistas, List.length_append,
        List.length_cons, ihr hmr]
      omega

/- ---------------- lemmas: the hash table ---------------- -/

theorem streq_eq_false_iff (a b : Str) : streq a b = false ↔ a ≠ b := by
  constructor
  · intro h he
    rw [(streq_iff a b).mpr he] at h
    cases h
  · intro h
    cases hs : streq a b with
    | false => rfl
    | true => exact absurd ((streq_iff a b).mp hs) h

theorem findInChain_replaceSuspect_self (ch : List HashEntry) (k s : Str)
    (h : containsKey ch k = true) :
    findInChain (replaceSuspect ch k s) k = some s := by
  induction ch with
  | nil => simp [containsKey] at h
  | cons e rest ih =>
    cases he : streq e.key k with
    | true => simp [replaceSuspect, he, findInChain]
    | false =>
      simp only [containsKey, he, Bool.false_or] at h
      simp [replaceSuspect, he, findInChain, ih h]

theorem findInChain_replaceSuspect_other (ch : List HashEntry) (k s c : Str)
    (hck : c ≠ k) :
    findInChain (replaceSuspect ch k s) c = findInChain ch c := by
  induction ch with
  | nil => rfl
  | cons e rest ih =>
    cases he : streq e.key k with
    | true =>
      have hek : e.key = k := (streq_iff _ _).mp he
      have hc : streq e.key c = false := by
        rw [streq_eq_false_iff, hek]
        exact fun h => hck h.symm
      simp [replaceSuspect, he, findInChain, hc]
    | false => simp [replaceSuspect, he, findInChain, ih]

theorem encontrarSuspeito_inserirNaHash (t : HashTable) (k s c : Str) :
    encontrarSuspeito (inserirNaHash t k s) c =
      if c = k then some s else encontrarSuspeito t c := by
  simp only [encontrarSuspeito, inserirNaHash]
  by_cases hck : c = k
  · subst hck
    simp only [if_pos rfl]
    cases hc : containsKey (t (hash_func c)) c with
    | true => simp [findInChain_replaceSuspect_self _ c s hc]
    | false =>
      have hcc : streq c c = true := (streq_iff c c).mpr rfl
      simp [hc, findInChain, hcc]
  · simp only [if_neg hck]
    by_cases hh : hash_func c = hash_func k
    · cases hc : containsKey (t (hash_func k)) k with
      | true => simp [hh, findInChain_replaceSuspect_other _ k s c hck]
      | false =>
        have hkc : streq k c = false := by
          rw [streq_eq_false_iff]
          exact fun h => hck h.symm
        simp [hh, hc, findInChain, hkc]
    · simp [hh]

theorem encontrarSuspeito_emptyTable (c : Str) :
    encontrarSuspeito emptyTable c = none := rfl

theorem aplicarInsercoes_append (ops : List (Str × Str)) (p : Str × Str) :
    aplicarInsercoes (ops ++ [p]) =
      inserirNaHash (aplicarInsercoes ops) p.1 p.2 := by
  unfold aplicarInsercoes
  rw [List.foldl_append]
  rfl

theorem encontrarSuspeito_aplicarInsercoes (ops : List (Str × Str)) (c : Str) :
    encontrarSuspeito (aplicarInsercoes ops) c =
      (ops.reverse.find? fun p => streq p.1 c).map Prod.snd := by
  induction ops using List.reverseRecOn with
  | nil => rfl
  | append_singleton l p ih =>
    rw [aplicarInsercoes_append, encontrarSuspeito_inserirNaHash,
      List.reverse_append]
    simp only [List.reverse_cons, List.reverse_nil, List.nil_append,
      List.singleton_append]
    by_cases hp : streq p.1 c = true
    · have hc : c = p.1 := ((streq_iff _ _).mp hp).symm
      simp only [List.find?, hp]
      rw [if_pos hc]
      rfl
    · have hne : ¬ c = p.1 := fun h => hp ((streq_iff _ _).mpr h.symm)
      have hp' : streq p.1 c = false := by
        cases hst : streq p.1 c with
        | false => rfl
        | true => exact absurd hst hp
      simp only [List.find?, hp']
      rw [if_neg hne]
      exact ih

theorem hash_func_lt (s : Str) : hash_func s < HASH_SIZE :=
  Nat.mod_lt _ (by decide)

theorem replaceSuspect_map_key (ch : List HashEntry) (k s : Str) :
    (replaceSuspect ch k s).map HashEntry.key = ch.map HashEntry.key := by
  induction ch with
  | nil => rfl
  | cons e rest ih =>
    cases he : streq e.key k with
    | true => simp [replaceSuspect, he]
    | false => simp [replaceSuspect, he, ih]

theorem countKey_replaceSuspect (ch : List HashEntry) (k s c : Str) :
    countKey (replaceSuspect ch k s) c = countKey ch c := by
  induction ch with
  | nil => rfl
  | cons e rest ih =>
    simp only [countKey] at ih ⊢
    cases he : streq e.key k with
    | true =>
      simp only [replaceSuspect, he, if_pos rfl, List.filter]
      cases hc : streq e.key c <;> simp [hc]
    | false =>
      simp only [replaceSuspect, he, Bool.false_eq_true, if_false, List.filter]
      cases hc : streq e.key c <;> simp [hc, ih]

theorem countKey_zero_of_not_contains (ch : List HashEntry) (k : Str)
    (h : containsKey ch k = false) : countKey ch k = 0 := by
  induction ch with
  | nil => rfl
  | cons e rest ih =>
    simp only [containsKey, Bool.or_eq_false_iff] at h
    simp only [countKey, List.filter, h.1, Bool.false_eq_true, if_false]
    have := ih h.2
    simpa [countKey] using this

theorem countKey_pos_of_contains (ch : List HashEntry) (k : Str)
    (h : containsKey ch k = true) : 1 ≤ countKey ch k := by
  induction ch with
  | nil => simp [containsKey] at h
  | cons e rest ih =>
    cases he : streq e.key k with
    | true => simp [countKey, List.filter, he]
    | false =>
      simp only [containsKey, he, Bool.false_or] at h
      simp only [countKey, List.filter, he]
      exact ih h

theorem containsKey_replaceSuspect (ch : List HashEntry) (k s c : Str) :
    containsKey (replaceSuspect ch k s) c = containsKey ch c := by
  induction ch with
  | nil => rfl
  | cons e rest ih =>
    cases he : streq e.key k with
    | true => simp [replaceSuspect, he, containsKey]
    | false => simp [replaceSuspect, he, containsKey, ih]

theorem tableWF_emptyTable : tableWF emptyTable := by
  constructor
  · intro i e he
    simp [emptyTable] at he
  · intro i c
    simp [emptyTable, countKey, List.filter]

theorem tableWF_inserirNaHash (t : HashTable) (k s : Str) (h : tableWF t) :
    tableWF (inserirNaHash t k s) := by
  obtain ⟨hb, hc⟩ := h
  constructor
  · intro i e he
    simp only [inserirNaHash] at he
    by_cases hi : i = hash_func k
    · rw [if_pos hi] at he
      by_cases hck : containsKey (t (hash_func k)) k = true
      · rw [if_pos hck] at he
        have : e.key ∈ (replaceSuspect (t (hash_func k)) k s).map HashEntry.key :=
          List.mem_map_of_mem HashEntry.key he
        rw [replaceSuspect_map_key] at this
        obtain ⟨e0, he0, hkey⟩ := List.mem_map.mp this
        rw [← hkey, hb (hash_func k) e0 he0, hi]
      · rw [if_neg hck] at he
        rcases List.mem_cons.mp he with he | he
        · rw [he, hi]
        · rw [hb (hash_func k) e he, hi]
    · rw [if_neg hi] at he
      exact hb i e he
  · intro i c
    simp only [inserirNaHash]
    by_cases hi : i = hash_func k
    · rw [if_pos hi]
      by_cases hck : containsKey (t (hash_func k)) k = true
      · rw [if_pos hck, countKey_replaceSuspect]
        exact hc _ c
      · rw [if_neg hck]
        cases hkc : streq k c with
        | true =>
          have hkc' : k = c := (streq_iff _ _).mp hkc
          subst hkc'
          have h0 : countKey (t (hash_func k)) k = 0 :=
            countKey_zero_of_not_contains _ _ (Bool.of_not_eq_true hck)
          simp only [countKey] at h0
          simp only [countKey, List.filter, (streq_iff k k).mpr rfl,
            List.length_cons]
          omega
        | false =>
          simp only [countKey, List.filter, hkc, Bool.false_eq_true, if_false]
          exact hc _ c
    · rw [if_neg hi]
      exact hc i c

theorem tableWF_foldl (ops : List (Str × Str)) (t : HashTable)
    (h : tableWF t) :
    tableWF (ops.foldl (fun t p => inserirNaHash t p.1 p.2) t) := by
  induction ops generalizing t with
  | nil => exact h
  | cons p rest ih =>
    exact ih _ (tableWF_inserirNaHash t p.1 p.2 h)

theorem tableWF_aplicarInsercoes (ops : List (Str × Str)) :
    tableWF (aplicarInsercoes ops) :=
  tableWF_foldl ops emptyTable tableWF_emptyTable

theorem countKey_zero_of_ne_bucket (t : HashTable) (c : Str) (i : Nat)
    (hb : ∀ i, ∀ e ∈ t i, hash_func e.key = i) (hi : i ≠ hash_func c) :
    countKey (t i) c = 0 := by
  rw [countKey, List.length_eq_zero, List.filter_eq_nil_iff]
  intro e he
  intro hk
  have : e.key = c := (streq_iff _ _).mp hk
  rw [← this] at hi
  exact hi (hb i e he).symm

theorem entriesForKey_eq_bucket (t : HashTable) (c : Str)
    (hb : ∀ i, ∀ e ∈ t i, hash_func e.key = i) :
    entriesForKey t c = countKey (t (hash_func c)) c := by
  unfold entriesForKey
  refine Finset.sum_eq_single_of_mem (hash_func c)
    (Finset.mem_range.mpr (hash_func_lt c)) ?_
  intro i _ hi
  exact countKey_zero_of_ne_bucket t c i hb hi

theorem containsKey_inserirNaHash_self (t : HashTable) (k s : Str) :
    containsKey ((inserirNaHash t k s) (hash_func k)) k = true := by
  simp only [inserirNaHash, if_pos rfl]
  by_cases hck : containsKey (t (hash_func k)) k = true
  · rw [if_pos hck, containsKey_replaceSuspect]
    exact hck
  · rw [if_neg hck]
    simp [containsKey, (streq_iff k k).mpr rfl]

/- ---------------- lemmas: exploration and the verdict count ---------------- -/

theorem mem_visitClue (col : ClueTree) (name c : Str)
    (h : c ∈ listarPistas (visitClue col name)) :
    c ∈ listarPistas col ∨ getClueForRoom name = some c := by
  unfold visitClue at h
  cases hg : getClueForRoom name with
  | none =>
    rw [hg] at h
    exact Or.inl h
  | some clue =>
    rw [hg] at h
    rcases (mem_inserirPista col clue c).mp h with h | h
    · exact Or.inl h
    · rw [h]
      exact Or.inr rfl

theorem mem_explorarLoop (stdin : List Str) (room : Room) (col : ClueTree)
    (c : Str) (h : c ∈ listarPistas (explorarLoop room col stdin)) :
    c ∈ listarPistas col ∨ ∃ name, getClueForRoom name = some c := by
  induction stdin generalizing room col with
  | nil =>
    cases room with
    | nil => exact Or.inl h
    | node name l r =>
      simp only [explorarLoop] at h
      rcases mem_visitClue col name c h with h2 | h2
      · exact Or.inl h2
      · exact Or.inr ⟨name, h2⟩
  | cons line rest ih =>
    cases room with
    | nil => exact Or.inl h
    | node name l r =>
      simp only [explorarLoop] at h
      cases line with
      | nil =>
        rcases ih _ _ h with h2 | h2
        · rcases mem_visitClue col name c h2 with h3 | h3
          · exact Or.inl h3
          · exact Or.inr ⟨name, h3⟩
        · exact Or.inr h2
      | cons ch cs =>
        cases hn : navStep name l r ch with
        | continueAt next =>
          simp only [hn] at h
          rcases ih _ _ h with h2 | h2
          · rcases mem_visitClue col name c h2 with h3 | h3
            · exact Or.inl h3
            · exact Or.inr ⟨name, h3⟩
          · exact Or.inr h2
        | finished =>
          simp only [hn] at h
          rcases mem_visitClue col name c h with h3 | h3
          · exact Or.inl h3
          · exact Or.inr ⟨name, h3⟩

theorem getClueForRoom_indexed (name clue : Str)
    (h : getClueForRoom name = some clue) :
    (encontrarSuspeito popularTabelaHash clue).isSome = true := by
  unfold getClueForRoom at h
  split_ifs at h <;>
    first
      | (cases h; decide)
      | (exact absurd h (by simp))

theorem count_clues_eq_filter (l : ClueTree) (t : HashTable) (a : Str) :
    count_clues_for_suspect l t a =
      ((listarPistas l).filter (clueImplicates t a)).length := by
  induction l with
  | nil => rfl
  | node c left right ihl ihr =>
    simp only [count_clues_for_suspect, listarPistas, List.filter_append,
      List.length_append, ihl, ihr, List.filter]
    cases hg : encontrarSuspeito t c with
    | none =>
      simp [clueImplicates, hg]
      try omega
    | some s =>
      cases hs : streq s a with
      | true =>
        simp [clueImplicates, hg, hs]
        try omega
      | false =>
        simp [clueImplicates, hg, hs]
        try omega

theorem inserirNaHash_bucket_self (t : HashTable) (k s : Str) :
    (inserirNaHash t k s) (hash_func k) =
      if containsKey (t (hash_func k)) k then replaceSuspect (t (hash_func k)) k s
      else { key := k, suspect := s } :: t (hash_func k) := by
  simp [inserirNaHash]

theorem isBST_foldl (clues : List Str) (t : ClueTree) (h : isBST t = true) :
    isBST (clues.foldl inserirPista t) = true := by
  induction clues generalizing t with
  | nil => exact h
  | cons c rest ih => exact ih _ (isBST_inserirPista t c h)

theorem length_filter_streq_eq_one {l : List Str} {c : Str} (hnd : l.Nodup)
    (hm : c ∈ l) : (l.filter fun x => streq x c).length = 1 := by
  induction l with
  | nil => simp at hm
  | cons a as ih =>
    rcases List.mem_cons.mp hm with h | h
    · subst h
      have hrest : as.filter (fun x => streq x c) = [] := by
        rw [List.filter_eq_nil_iff]
        intro x hx
        have hne : x ≠ c := by
          intro he
          subst he
          exact (List.nodup_cons.mp hnd).1 hx
        simp [(streq_eq_false_iff x c).mpr hne]
      simp [List.filter, (streq_iff c c).mpr rfl, hrest]
    · have hne : a ≠ c := by
        intro he
        subst he
        exact (List.nodup_cons.mp hnd).1 h
      simp only [List.filter, (streq_eq_false_iff a c).mpr hne,
        Bool.false_eq_true, if_false]
      exact ih (List.nodup_cons.mp hnd).2 h

/- ---------------- the claims ---------------- -/

/-- Claim C1: for every ledger, table and accused name, the verdict count
equals the number of in-order ledger clues whose table lookup returns a
suspect byte-equal to the accused; with a non-empty ledger and a non-empty
accused name the rendered outcome is acusacaoValida (SUPPORTED) exactly when
the count is at least 2 and acusacaoFraca (WEAK) otherwise; and on the
spec's three-clue scenario accusing Sra. Rosa gives count 3 and SUPPORTED
while accusing Sr. Verde gives count 0 and WEAK. -/
theorem verdict_count_spec :
    (∀ (l : ClueTree) (t : HashTable) (a : Str),
        count_clues_for_suspect l t a =
          ((listarPistas l).filter (clueImplicates t a)).length)
    ∧ (∀ (l : ClueTree) (t : HashTable) (a : Str) (rest : List Str),
        l ≠ ClueTree.nil → a ≠ [] →
        (verificarSuspeitoFinal l t (a :: rest)).1 =
          if 2 ≤ count_clues_for_suspect l t a
          then Veredito.acusacaoValida (count_clues_for_suspect l t a)
          else Veredito.acusacaoFraca (count_clues_for_suspect l t a))
    ∧ count_clues_for_suspect exemploLedger exemploTabela (strBytes "Sra. Rosa") = 3
    ∧ (verificarSuspeitoFinal exemploLedger exemploTabela [strBytes "Sra. Rosa"]).1
        = Veredito.acusacaoValida 3
    ∧ count_clues_for_suspect exemploLedger exemploTabela (strBytes "Sr. Verde") = 0
    ∧ (verificarSuspeitoFinal exemploLedger exemploTabela [strBytes "Sr. Verde"]).1
        = Veredito.acusacaoFraca 0 := by
  refine ⟨count_clues_eq_filter, ?_, by decide, by decide, by decide, by decide⟩
  intro l t a rest hl ha
  cases l with
  | nil => exact absurd rfl hl
  | node c lt rt =>
    simp only [verificarSuspeitoFinal]
    rw [if_neg ha]
    by_cases h2 : 2 ≤ count_clues_for_suspect (.node c lt rt) t a
    · rw [if_pos h2, if_pos h2]
    · rw [if_neg h2, if_neg h2]

/-- Witness for C1: the spec's scenario, accusing Sra. Rosa with the
three-clue ledger, rendered through the verdict rule of the theorem. -/
theorem verdict_count_spec_witness :
    (verificarSuspeitoFinal exemploLedger exemploTabela [strBytes "Sra. Rosa"]).1
      = Veredito.acusacaoValida
          (count_clues_for_suspect exemploLedger exemploTabela
            (strBytes "Sra. Rosa")) := by
  have h := verdict_count_spec.2.1 exemploLedger exemploTabela
    (strBytes "Sra. Rosa") [] (by decide) (by decide)
  rw [h, if_pos (by decide)]

/-- Claim C2: after any sequence of insertions into an initially empty
ledger, the tree satisfies the BST ordering invariant under the insertion
comparison, its in-order texts are pairwise distinct, and the in-order
traversal is strictly increasing (hence non-decreasing) byte-wise. -/
theorem ledger_bst_invariant (clues : List Str) :
    isBST (clues.foldl inserirPista ClueTree.nil) = true
    ∧ (listarPistas (clues.foldl inserirPista ClueTree.nil)).Nodup
    ∧ (listarPistas (clues.foldl inserirPista ClueTree.nil)).Pairwise
        (fun a b => sLt a b = true) := by
  have h := isBST_foldl clues ClueTree.nil rfl
  exact ⟨h, nodup_listarPistas _ h, pairwise_listarPistas _ h⟩

/-- Claim C3: on a BST ledger, inserting a clue already present returns the
tree unchanged; the in-order clue set of the result is the old set plus the
new text; the result is still a BST (so the new node sits at the correct
sorted position); the in-order length grows by at most one, and by exactly
one when the text is new; inserting the same text twice equals inserting it
once, and the result holds exactly one node for that text. -/
theorem insertClue_dedup_spec (t : ClueTree) (c : Str) (h : isBST t = true) :
    (c ∈ listarPistas t → inserirPista t c = t)
    ∧ (∀ x, x ∈ listarPistas (inserirPista t c) ↔ x ∈ listarPistas t ∨ x = c)
    ∧ isBST (inserirPista t c) = true
    ∧ (listarPistas (inserirPista t c)).length ≤ (listarPistas t).length + 1
    ∧ (c ∉ listarPistas t →
        (listarPistas (inserirPista t c)).length = (listarPistas t).length + 1)
    ∧ inserirPista (inserirPista t c) c = inserirPista t c
    ∧ ((listarPistas (inserirPista t c)).filter fun x => streq x c).length = 1 := by
  have hbst := isBST_inserirPista t c h
  have hmem : c ∈ listarPistas (inserirPista t c) :=
    (mem_inserirPista t c c).mpr (Or.inr rfl)
  refine ⟨inserirPista_mem_eq t c h, mem_inserirPista t c, hbst,
    length_inserirPista_le t c, length_inserirPista_not_mem t c,
    inserirPista_mem_eq _ c hbst hmem,
    length_filter_streq_eq_one (nodup_listarPistas _ hbst) hmem⟩

/-- Witness for C3: inserting Vidro quebrado into the example ledger, which
already holds it, returns the ledger unchanged. -/
theorem insertClue_dedup_spec_witness :
    inserirPista exemploLedger (strBytes "Vidro quebrado") = exemploLedger :=
  (insertClue_dedup_spec exemploLedger (strBytes "Vidro quebrado")
    (by decide)).1 (by decide)

/-- Claim C4: starting from any table the program can build (a sequence of
inserirNaHash calls on empty buckets), inserting suspect s1 and then s2
under the same clue text leaves exactly one entry for that text in the
whole table, and a lookup returns s2. -/
theorem insertOrUpdate_last_write_wins (ops : List (Str × Str))
    (c s1 s2 : Str) :
    encontrarSuspeito
        (inserirNaHash (inserirNaHash (aplicarInsercoes ops) c s1) c s2) c
      = some s2
    ∧ entriesForKey
        (inserirNaHash (inserirNaHash (aplicarInsercoes ops) c s1) c s2) c
      = 1 := by
  have hwf : tableWF (aplicarInsercoes ops) := tableWF_aplicarInsercoes ops
  have hwf1 : tableWF (inserirNaHash (aplicarInsercoes ops) c s1) :=
    tableWF_inserirNaHash _ c s1 hwf
  have hwf2 : tableWF (inserirNaHash (inserirNaHash (aplicarInsercoes ops) c s1) c s2) :=
    tableWF_inserirNaHash _ c s2 hwf1
  constructor
  · rw [encontrarSuspeito_inserirNaHash, if_pos rfl]
  · rw [entriesForKey_eq_bucket _ _ hwf2.1]
    have hcontains :
        containsKey ((inserirNaHash (aplicarInsercoes ops) c s1) (hash_func c)) c
          = true := containsKey_inserirNaHash_self _ c s1
    rw [inserirNaHash_bucket_self, if_pos hcontains, countKey_replaceSuspect]
    have hle := hwf1.2 (hash_func c) c
    have hge := countKey_pos_of_contains _ _ hcontains
    omega

/-- Claim C5: a lookup in any table built by a sequence of inserts returns
the suspect of the most recent insert whose key is byte-equal to the looked
up text, and none when no insert used that exact text; moreover inserting
under one key never changes the lookup of any other key, even one hashing
to the same bucket, because the chain scan compares full texts. -/
theorem lookup_last_assoc_spec :
    (∀ (ops : List (Str × Str)) (c : Str),
        encontrarSuspeito (aplicarInsercoes ops) c =
          (ops.reverse.find? fun p => streq p.1 c).map Prod.snd)
    ∧ (∀ (t : HashTable) (k s c : Str), c ≠ k →
        encontrarSuspeito (inserirNaHash t k s) c = encontrarSuspeito t c) := by
  refine ⟨encontrarSuspeito_aplicarInsercoes, ?_⟩
  intro t k s c hck
  rw [encontrarSuspeito_inserirNaHash, if_neg hck]

/-- Witness for C5: inserting Vidro quebrado leaves the lookup of the
distinct text Livro deslocado unchanged. -/
theorem lookup_last_assoc_spec_witness :
    encontrarSuspeito
        (inserirNaHash emptyTable (strBytes "Vidro quebrado")
          (strBytes "Sra. Rosa"))
        (strBytes "Livro deslocado")
      = encontrarSuspeito emptyTable (strBytes "Livro deslocado") :=
  lookup_last_assoc_spec.2 emptyTable (strBytes "Vidro quebrado")
    (strBytes "Sra. Rosa") (strBytes "Livro deslocado") (by decide)

/-- Claim C6: with an empty ledger the verdict phase returns the distinct
semPistas (NO_EVIDENCE) outcome for every table and every input stream,
consuming no input line (no accusation prompt) and with a result that does
not depend on the table contents (no lookup is performed). -/
theorem empty_ledger_no_evidence (table : HashTable) (stdin : List Str) :
    verificarSuspeitoFinal ClueTree.nil table stdin =
      (Veredito.semPistas, ClueTree.nil, table, stdin) := rfl

/-- Claim C7: at a room, first bytes e/E move to the left child when it
exists and stay at the same room when it does not, d/D likewise for the
right child, s/S end the exploration, and any other first byte leaves the
cursor unchanged; the loop equation ties the dispatch back into the
exploration loop. -/
theorem nav_step_spec (name : Str) (l r : Room) (c : Nat) (line : List Nat)
    (col : ClueTree) (rest : List Str) :
    ((c = 'e'.toNat ∨ c = 'E'.toNat) → l ≠ .nil → navStep name l r c = .continueAt l)
    ∧ ((c = 'e'.toNat ∨ c = 'E'.toNat) → l = .nil →
        navStep name l r c = .continueAt (.node name l r))
    ∧ ((c = 'd'.toNat ∨ c = 'D'.toNat) → r ≠ .nil → navStep name l r c = .continueAt r)
    ∧ ((c = 'd'.toNat ∨ c = 'D'.toNat) → r = .nil →
        navStep name l r c = .continueAt (.node name l r))
    ∧ ((c = 's'.toNat ∨ c = 'S'.toNat) → navStep name l r c = .finished)
    ∧ (c ∉ ['e'.toNat, 'E'.toNat, 'd'.toNat, 'D'.toNat, 's'.toNat, 'S'.toNat] →
        navStep name l r c = .continueAt (.node name l r))
    ∧ (explorarLoop (.node name l r) col ((c :: line) :: rest) =
        match navStep name l r c with
        | .continueAt next => explorarLoop next (visitClue col name) rest
        | .finished => visitClue col name) := by
  refine ⟨?_, ?_, ?_, ?_, ?_, ?_, ?_⟩
  · intro hc hl
    cases l with
    | nil => exact absurd rfl hl
    | node n a b => rcases hc with hc | hc <;> subst hc <;> simp [navStep]
  · intro hc hl
    subst hl
    rcases hc with hc | hc <;> subst hc <;> simp [navStep]
  · intro hc hr
    cases r with
    | nil => exact absurd rfl hr
    | node n a b => rcases hc with hc | hc <;> subst hc <;> simp [navStep]
  · intro hc hr
    subst hr
    rcases hc with hc | hc <;> subst hc <;> cases l <;> simp [navStep]
  · intro hc
    rcases hc with hc | hc <;> subst hc <;> simp [navStep]
  · intro hc
    simp only [List.mem_cons, List.not_mem_nil, or_false, not_or] at hc
    obtain ⟨h1, h2, h3, h4, h5, h6⟩ := hc
    have e1 : ¬ c = 101 := h1
    have e2 : ¬ c = 69 := h2
    have e3 : ¬ c = 100 := h3
    have e4 : ¬ c = 68 := h4
    have e5 : ¬ c = 115 := h5
    have e6 : ¬ c = 83 := h6
    simp [navStep, e1, e2, e3, e4, e5, e6]
  · cases hn : navStep name l r c <;> simp [explorarLoop, hn]

/-- Witness for C7: at the mansion entrance with no children, the byte s
ends the exploration. -/
theorem nav_step_spec_witness :
    navStep (strBytes "Entrada") Room.nil Room.nil 's'.toNat
      = StepOutcome.finished :=
  (nav_step_spec (strBytes "Entrada") Room.nil Room.nil 's'.toNat []
    ClueTree.nil []).2.2.2.2.1 (Or.inl rfl)

/-- Claim C8: the verdict phase returns the ledger and the table it was
given, unchanged, for every ledger, table and input. -/
theorem verdict_no_mutation (collected : ClueTree) (table : HashTable)
    (stdin : List Str) :
    (verificarSuspeitoFinal collected table stdin).2.1 = collected
    ∧ (verificarSuspeitoFinal collected table stdin).2.2.1 = table := by
  cases collected with
  | nil => exact ⟨rfl, rfl⟩
  | node c l r =>
    cases stdin with
    | nil => exact ⟨rfl, rfl⟩
    | cons accused rest =>
      by_cases ha : accused = []
      · simp [verificarSuspeitoFinal, ha]
      · by_cases h2 : 2 ≤ count_clues_for_suspect (.node c l r) table accused
        · simp [verificarSuspeitoFinal, ha, h2]
        · simp [verificarSuspeitoFinal, ha, h2]

/-- Claim C9: end of input at the exploration prompt yields the same ledger
as choosing stop there, and end of input at the accusation prompt ends the
judgment with the silent fimDeEntrada outcome, rendering no verdict. -/
theorem eof_graceful :
    (∀ (room : Room) (col : ClueTree) (table : HashTable),
        explorarSalas room col table [] = explorarSalas room col table [strBytes "s"])
    ∧ (∀ (col : ClueTree) (table : HashTable), col ≠ ClueTree.nil →
        verificarSuspeitoFinal col table [] =
          (Veredito.fimDeEntrada, col, table, [])) := by
  constructor
  · intro room col table
    cases room with
    | nil => rfl
    | node name l r => rfl
  · intro col table hcol
    cases col with
    | nil => exact absurd rfl hcol
    | node c l r => rfl

/-- Witness for C9: end of input at the accusation prompt over the example
ledger returns the silent outcome with no verdict. -/
theorem eof_graceful_witness :
    verificarSuspeitoFinal exemploLedger emptyTable [] =
      (Veredito.fimDeEntrada, exemploLedger, emptyTable, []) :=
  eof_graceful.2 exemploLedger emptyTable (by decide)

/-- Claim C10: every clue the room-to-clue chain can produce is a key of the
startup table, so its lookup is non-NULL; hence every clue in any ledger
reachable by exploring the built mansion from an empty notebook has a
non-NULL lookup at verdict time. -/
theorem mansion_clues_always_indexed :
    (∀ name clue, getClueForRoom name = some clue →
        (encontrarSuspeito popularTabelaHash clue).isSome = true)
    ∧ (∀ (stdin : List Str) (c : Str),
        c ∈ listarPistas
          (explorarSalas construirMansao ClueTree.nil popularTabelaHash stdin) →
        (encontrarSuspeito popularTabelaHash c).isSome = true) := by
  constructor
  · exact getClueForRoom_indexed
  · intro stdin c hc
    rcases mem_explorarLoop stdin construirMansao ClueTree.nil c hc with h | ⟨name, hn⟩
    · simp [listarPistas] at h
    · exact getClueForRoom_indexed name c hn

/-- Witness for C10: the entrance clue Pegadas lamacentas has a non-NULL
lookup in the startup table. -/
theorem mansion_clues_always_indexed_witness :
    (encontrarSuspeito popularTabelaHash (strBytes "Pegadas lamacentas")).isSome
      = true :=
  mansion_clues_always_indexed.1 (strBytes "Entrada")
    (strBytes "Pegadas lamacentas") (by decide)
